import Mathlib

/-!
Shallow embedding of the radix-router (src/index.ts) and proofs about it.

Modelling conventions:
* JS strings that undergo character-level slicing (paths, path fragments,
  parameter names and values) are `List Char`; `String.slice(0, i)` is
  `List.take i`, `String.slice(a, b)` is `(List.drop a).take (b - a)`, and
  `String.indexOf(c, from)` is `idxFrom c from l` (with `none` for JS `-1`).
* JS objects used as string-keyed dictionaries are association lists with
  the object semantics: lookup finds the stored value, assignment updates
  an existing key in place and appends a missing key at the end.
* Handlers are opaque callables; the router never inspects them, so they
  are modelled by an arbitrary type `H` (instantiated with `Nat` in
  concrete examples).  "Invoking" a handler is modelled by returning which
  handler the code would call together with the argument it would receive.
* A thrown JS exception is an `Except.error`; a method that can throw while
  also having mutated state returns the error together with the state as it
  stands when the exception propagates.
-/

set_option maxRecDepth 8000

namespace RadixRouterModel

/-- JS dictionary lookup (`obj[key]`): the stored value, `none` when absent. -/
def lookupA {κ α : Type} [DecidableEq κ] (k : κ) : List (κ × α) → Option α
  | [] => none
  | (k', v) :: t => if k' = k then some v else lookupA k t

/-- JS dictionary assignment (`obj[key] = v`): update the existing binding in
place, else append the new binding at the end (JS property-order semantics). -/
def insertA {κ α : Type} [DecidableEq κ] (k : κ) (v : α) : List (κ × α) → List (κ × α)
  | [] => [(k, v)]
  | (k', v') :: t => if k' = k then (k', v) :: t else (k', v') :: insertA k v t

/-- Helper for `idxFrom`: index of the first occurrence of `c`, offset by `i`. -/
def idxOfAux (c : Char) : List Char → Nat → Option Nat
  | [], _ => none
  | x :: xs, i => if x = c then some i else idxOfAux c xs (i + 1)

/-- JS `path.indexOf(c, start)`: position of the first occurrence of `c` at or
after `start`, `none` standing for JS's `-1`. -/
def idxFrom (c : Char) (start : Nat) (l : List Char) : Option Nat :=
  (idxOfAux c (l.drop start) 0).map (· + start)

theorem idxOfAux_some {c : Char} : ∀ {l : List Char} {i j : Nat},
    idxOfAux c l i = some j → i ≤ j ∧ j - i < l.length ∧ l[j - i]? = some c := by
  intro l
  induction l with
  | nil => intro i j h; simp [idxOfAux] at h
  | cons x xs ih =>
    intro i j h
    by_cases hx : x = c
    · simp [idxOfAux, hx] at h
      subst h; subst hx
      simp
    · simp [idxOfAux, hx] at h
      obtain ⟨h1, h2, h3⟩ := ih h
      refine ⟨by omega, by simp; omega, ?_⟩
      have hji : j - i = (j - (i + 1)) + 1 := by omega
      rw [hji]
      simpa using h3

theorem idxFrom_some {c : Char} {s j : Nat} {l : List Char}
    (h : idxFrom c s l = some j) : s ≤ j ∧ j < l.length ∧ l[j]? = some c := by
  unfold idxFrom at h
  cases hA : idxOfAux c (l.drop s) 0 with
  | none => rw [hA] at h; simp at h
  | some j0 =>
    rw [hA] at h
    simp at h
    obtain ⟨-, h2, h3⟩ := idxOfAux_some hA
    simp at h2 h3
    have hj : j = s + j0 := by omega
    subst hj
    exact ⟨by omega, by omega, h3⟩

theorem idxOfAux_none {c : Char} : ∀ {l : List Char} {i : Nat},
    idxOfAux c l i = none → c ∉ l := by
  intro l
  induction l with
  | nil => intro i _; simp
  | cons x xs ih =>
    intro i h
    by_cases hx : x = c
    · simp [idxOfAux, hx] at h
    · simp only [idxOfAux, if_neg hx] at h
      simp only [List.mem_cons, not_or]
      exact ⟨fun hc => hx hc.symm, ih h⟩

theorem idxFrom_none_of_not_mem {c : Char} {s : Nat} {l : List Char}
    (h : c ∉ l) : idxFrom c s l = none := by
  unfold idxFrom
  cases hA : idxOfAux c (l.drop s) 0 with
  | none => rfl
  | some j0 =>
    exfalso
    obtain ⟨-, -, h3⟩ := idxOfAux_some hA
    have : c ∈ l.drop s := by
      have hlt : j0 - 0 < (l.drop s).length := (idxOfAux_some hA).2.1
      exact List.mem_iff_getElem?.2 ⟨j0 - 0, h3⟩
    exact h (List.mem_of_mem_drop this)

/-- In `idxFrom c 0 l = some j`, `j` is the first occurrence of `c`. -/
theorem idxOfAux_first {c : Char} : ∀ {l : List Char} {i j : Nat},
    idxOfAux c l i = some j → ∀ k, i ≤ k → k < j → l[k - i]? ≠ some c := by
  intro l
  induction l with
  | nil => intro i j h; simp [idxOfAux] at h
  | cons x xs ih =>
    intro i j h k hik hkj
    by_cases hx : x = c
    · simp [idxOfAux, hx] at h
      omega
    · simp only [idxOfAux, if_neg hx] at h
      rcases Nat.eq_or_lt_of_le hik with hik' | hik'
      · subst hik'
        simpa using fun hc => hx hc
      · have := ih h k hik' hkj
        have hki : k - i = (k - (i + 1)) + 1 := by omega
        rw [hki]
        simpa using this

theorem idxFrom_first {c : Char} {j : Nat} {l : List Char}
    (h : idxFrom c 0 l = some j) : ∀ k, k < j → l[k]? ≠ some c := by
  intro k hk
  unfold idxFrom at h
  cases hA : idxOfAux c (l.drop 0) 0 with
  | none => rw [hA] at h; simp at h
  | some j0 =>
    rw [hA] at h
    simp at h
    have := idxOfAux_first hA k (Nat.zero_le _) (by omega)
    simpa using this

/-- Descriptor of one `:name` token found in a registration path
(class `Param` in the source). -/
structure Param where
  name : List Char
  startIndex : Nat
  endIndex : Nat
deriving DecidableEq, Repr

/-- The terminator search shared by build-time parsing: the first `/` at or
after `s`, else the first `?`, else the end of the string (the JS fallback
chain of reassignments of `nextParamEndIndex`). -/
def paramEnd (path : List Char) (s : Nat) : Nat :=
  match idxFrom '/' s path with
  | some e => e
  | none =>
    match idxFrom '?' s path with
    | some e => e
    | none => path.length

theorem paramEnd_bounds {path : List Char} {s : Nat} (hs : path[s]? = some ':') :
    s < paramEnd path s ∧ paramEnd path s ≤ path.length := by
  have hlen : s < path.length := by
    by_contra hc
    push_neg at hc
    rw [List.getElem?_eq_none hc] at hs
    simp at hs
  unfold paramEnd
  cases h1 : idxFrom '/' s path with
  | some e1 =>
    obtain ⟨ha, hb, hc⟩ := idxFrom_some h1
    have hne : e1 ≠ s := by
      intro hEq
      rw [hEq, hs] at hc
      simp at hc
    simp only [h1]
    exact ⟨by omega, by omega⟩
  | none =>
    cases h2 : idxFrom '?' s path with
    | some e2 =>
      obtain ⟨ha, hb, hc⟩ := idxFrom_some h2
      have hne : e2 ≠ s := by
        intro hEq
        rw [hEq, hs] at hc
        simp at hc
      simp only [h1, h2]
      exact ⟨by omega, by omega⟩
    | none =>
      simp only [h1, h2]
      exact ⟨hlen, Nat.le_refl _⟩

/-- The scan loop of `Params.#parseParams`: starting the `indexOf(':')` search
at `cursor` (the previous descriptor's end), record every further `:name`
token.  The loop also stops when the `:` found sits at index 0 (JS condition
`0 < nextParamStartIndex`). -/
def parseGo (path : List Char) (cursor : Nat) : List Param :=
  match hs : idxFrom ':' cursor path with
  | none => []
  | some s =>
    if s = 0 then []
    else
      Param.mk ((path.drop (s + 1)).take (paramEnd path s - (s + 1))) s (paramEnd path s) ::
        parseGo path (paramEnd path s)
termination_by path.length - cursor
decreasing_by
  have hb := idxFrom_some hs
  have he := paramEnd_bounds hb.2.2
  omega

/-- `new Params(path)` followed by `#parseParams` (cursor starts at 0). -/
def parseParams (path : List Char) : List Param :=
  parseGo path 0

theorem parseGo_wf : ∀ {fuel : Nat} (path : List Char) (cursor : Nat),
    path.length - cursor ≤ fuel →
    ∀ q ∈ parseGo path cursor,
      0 < q.startIndex ∧ q.startIndex < q.endIndex ∧ path[q.startIndex]? = some ':' := by
  intro fuel
  induction fuel with
  | zero =>
    intro path cursor hf q hq
    unfold parseGo at hq
    revert hq
    split
    · intro hq; simp at hq
    · next s hs =>
      split
      · intro hq; simp at hq
      · intro hq
        exfalso
        have hb := idxFrom_some hs
        omega
  | succ n ih =>
    intro path cursor hf q hq
    unfold parseGo at hq
    revert hq
    split
    · intro hq; simp at hq
    · next s hs =>
      split
      · intro hq; simp at hq
      · next hz =>
        intro hq
        have hb := idxFrom_some hs
        have he := paramEnd_bounds hb.2.2
        simp only [List.mem_cons] at hq
        rcases hq with hq | hq
        · subst hq
          exact ⟨Nat.pos_of_ne_zero hz, he.1, hb.2.2⟩
        · have hrec : path.length - paramEnd path s ≤ n := by omega
          exact ih path _ hrec q hq

/-- Every descriptor the parser produces has a positive start, an end strictly
after its start, and sits on a `:` of the original path. -/
theorem parseParams_wf (path : List Char) :
    ∀ q ∈ parseParams path,
      0 < q.startIndex ∧ q.startIndex < q.endIndex ∧ path[q.startIndex]? = some ':' :=
  parseGo_wf path 0 (Nat.le_refl _)

/-- A trie node (classes `Node` and `Leaf` of the source).  `frag` is the
constructor's `pathFragment` (stored privately, never read back); `handler`
is `some` exactly for `Leaf` instances (`node instanceof Leaf`); `param` is
the optionally attached parameter descriptor; `childTree` is the node's
child dictionary, initialised to `{}` and hence always present. -/
inductive Node (H : Type) where
  | mk (frag : List Char) (param : Option Param) (handler : Option H)
      (childTree : List (List Char × Node H))

/-- A `NodeByPathFragment` dictionary (the root of a `Tree`, or a `childTree`). -/
abbrev TreeMap (H : Type) : Type := List (List Char × Node H)

def Node.frag {H : Type} : Node H → List Char
  | .mk f _ _ _ => f

def Node.param {H : Type} : Node H → Option Param
  | .mk _ p _ _ => p

def Node.handler {H : Type} : Node H → Option H
  | .mk _ _ h _ => h

def Node.childTree {H : Type} : Node H → TreeMap H
  | .mk _ _ _ c => c

theorem Node.eta {H : Type} (n : Node H) :
    Node.mk n.frag n.param n.handler n.childTree = n := by
  cases n; rfl

theorem frag_mk {H : Type} (f : List Char) (p : Option Param) (h : Option H)
    (c : List (List Char × Node H)) : (Node.mk f p h c).frag = f := rfl

theorem param_mk {H : Type} (f : List Char) (p : Option Param) (h : Option H)
    (c : List (List Char × Node H)) : (Node.mk f p h c).param = p := rfl

theorem handler_mk {H : Type} (f : List Char) (p : Option Param) (h : Option H)
    (c : List (List Char × Node H)) : (Node.mk f p h c).handler = h := rfl

theorem childTree_mk {H : Type} (f : List Char) (p : Option Param) (h : Option H)
    (c : List (List Char × Node H)) : (Node.mk f p h c).childTree = c := rfl

theorem paramEnd_props (path : List Char) (s : Nat) :
    paramEnd path s ≤ path.length ∧ (s ≤ paramEnd path s ∨ paramEnd path s = path.length) := by
  unfold paramEnd
  cases h1 : idxFrom '/' s path with
  | some e1 =>
    obtain ⟨ha, hb, -⟩ := idxFrom_some h1
    simp only [h1]
    exact ⟨by omega, Or.inl ha⟩
  | none =>
    cases h2 : idxFrom '?' s path with
    | some e2 =>
      obtain ⟨ha, hb, -⟩ := idxFrom_some h2
      simp only [h1, h2]
      exact ⟨by omega, Or.inl ha⟩
    | none => simp [h1, h2]

/-- Iterations `j, j+1, …` of the `while` loop of `Tree.#buildTree`, with `n`
the node fetched or created by iteration `j-1` (the loop's `node` variable):
an iteration may attach a parameter descriptor starting at position `j` to
`n` and collapse the path, then fetches or creates the child for the prefix
`path.take j` inside `n.childTree` and descends into it.  The returned node
is `n` after all mutations the remaining iterations perform on it and its
descendants.  `hp` records the parser's guarantee `startIndex < endIndex`,
which bounds the loop (the JS loop would not terminate without it). -/
def buildGo {H : Type} (params : List Param)
    (hp : ∀ q ∈ params, q.startIndex < q.endIndex) (handler : H)
    (j : Nat) (path : List Char) (n : Node H) : Node H :=
  if hj : path.length < j then n
  else
    match hfind : params.find? (fun q => q.startIndex == j) with
    | some p =>
      -- `node.param = param` on the previous iteration's node, then
      -- `path = path.slice(0, i) + path.slice(param.endIndex, path.length)`
      let path2 := path.take j ++ path.drop p.endIndex
      let frag := path2.take j
      let child : Node H :=
        match lookupA frag n.childTree with
        | some c => c
        | none =>
          if j = path2.length then Node.mk frag none (some handler) []
          else Node.mk frag none none []
      Node.mk n.frag (some p) n.handler
        (insertA frag (buildGo params hp handler (j + 1) path2 child) n.childTree)
    | none =>
      let frag := path.take j
      let child : Node H :=
        match lookupA frag n.childTree with
        | some c => c
        | none =>
          if j = path.length then Node.mk frag none (some handler) []
          else Node.mk frag none none []
      Node.mk n.frag n.param n.handler
        (insertA frag (buildGo params hp handler (j + 1) path child) n.childTree)
termination_by path.length + 1 - j
decreasing_by
  · have hmem := List.mem_of_find?_eq_some hfind
    have hpred : p.startIndex = j := by simpa using List.find?_some hfind
    have hlt := hp p hmem
    simp only [List.length_append, List.length_take, List.length_drop]
    omega
  · omega

/-- `Tree.build` / `Tree.#buildTree`: iteration 1 is unrolled here because at
`i = 1` the loop's `node` variable is still `undefined`, so a parameter
descriptor starting at index 1 makes `node.param = param` throw a TypeError
before anything is inserted. -/
def Tree.build {H : Type} (path : List Char) (handler : H) (root : TreeMap H) :
    Except String (TreeMap H) :=
  let params := parseParams path
  if h1 : path.length < 1 then .ok root
  else
    match params.find? (fun q => q.startIndex == 1) with
    | some _ => .error "TypeError: Cannot set properties of undefined (setting param)"
    | none =>
      let frag := path.take 1
      let child : Node H :=
        match lookupA frag root with
        | some c => c
        | none =>
          if 1 = path.length then Node.mk frag none (some handler) []
          else Node.mk frag none none []
      .ok (insertA frag
        (buildGo params (fun q hq => ((parseParams_wf path) q hq).2.1) handler 2 path child)
        root)

/-- `if (node instanceof Leaf) return { handler, parsedParams }` after the
traversal loop ends (`last` is the loop's `node` variable, `undefined` when
the loop never ran or the last lookup found nothing). -/
def finish {H : Type} : Option (Node H) → List (List Char × List Char) →
    Option (H × List (List Char × List Char))
  | some n, acc =>
    match n.handler with
    | some h => some (h, acc)
    | none => none
  | none, _ => none

/-- The `while` loop of `Tree.#traverseForHandler` from iteration `i`: fetch
the node for the prefix `path.take i`; a missing node is a dead end (the
loop's `node` becomes `undefined`); if the node carries a parameter
descriptor, capture the value between `i+1` and the first `/` (else `?`,
else end of string), record it in `acc` and collapse the path, then continue.
The source's `if (!nodeByPathFragment) break` never fires because every
node's `childTree` is initialised to `{}`, and `node instanceof Node` always
holds for a fetched node; both checks are therefore not modelled. -/
def travGo {H : Type} (i : Nat) (path : List Char) (tree : TreeMap H)
    (last : Option (Node H)) (acc : List (List Char × List Char)) :
    Option (H × List (List Char × List Char)) :=
  if hi : path.length < i then finish last acc
  else
    match lookupA (path.take i) tree with
    | none => finish none acc
    | some n =>
      match n.param with
      | some p =>
        let stop := paramEnd path (i + 1)
        let value := (path.drop (i + 1)).take (stop - (i + 1))
        let path2 := path.take (i + 1) ++ path.drop stop
        travGo (i + 1) path2 n.childTree (some n) (insertA p.name value acc)
      | none => travGo (i + 1) path n.childTree (some n) acc
termination_by path.length + 1 - i
decreasing_by
  · have hprop := paramEnd_props path (i + 1)
    simp only [List.length_append, List.length_take, List.length_drop]
    omega
  · omega

/-- `Tree.traverse` / `Tree.#traverseForHandler`: the loop starts at `i = 1`
with the root dictionary, no fetched node and empty `parsedParams`. -/
def Tree.traverse {H : Type} (root : TreeMap H) (path : List Char) :
    Option (H × List (List Char × List Char)) :=
  travGo 1 path root none []

/-- `RadixRouter.#clearPath`: strip one trailing `/` unless the path has at
most one character. -/
def clearPath (path : List Char) : List Char :=
  if 1 < path.length ∧ path.getLast? = some '/' then path.dropLast else path

/-- `RadixRouter.#validatePath`.  The `typeof path === "string"` assertion is
enforced by the type of `path` in this embedding; the remaining assertions
are modelled with the source's messages.  The second assertion is guarded by
`path.length > 1 &&`. -/
def validatePath (path : List Char) : Except String Unit :=
  if path.take 1 ≠ ['/'] then .error "path must start with /"
  else if 1 < path.length ∧ path.getLast? = some '/' then .error "path can't end with /"
  else if path.getLast? = some ':' then .error "path can't end with :"
  else .ok ()

/-- The router's state: `#treeByMethod` and `#notFondHandler`.  (The
`typeof handler === "function"` assertion of `#validateHandler` is enforced
by typing and has no further model.) -/
structure RouterState (H : Type) where
  treeByMethod : List (String × TreeMap H)
  notFound : H

/-- `new RadixRouter(notFoundCb)`: `notFoundCb ?? noopFn`, where `noop`
stands for the module's `noopFn`. -/
def RadixRouter.new {H : Type} (noop : H) (notFoundCb : Option H) : RouterState H :=
  ⟨[], notFoundCb.getD noop⟩

/-- A router with no registrations and not-found handler `nf`. -/
def emptyRouter {H : Type} (nf : H) : RouterState H :=
  ⟨[], nf⟩

/-- `RadixRouter.#register` (validation, then `RadixRouter.#buildTree`).  The
method's tree is looked up (an absent method starts from the empty
dictionary) and is stored under the method in `#treeByMethod` in the source
BEFORE `tree.build` runs; when `tree.build` throws, the throw happens before
any node is inserted, so the stored tree keeps its previous contents.  The
result is the pair (outcome, state when control returns to the caller). -/
def register {H : Type} (st : RouterState H) (method : String) (path : List Char)
    (handler : H) : Except String Unit × RouterState H :=
  match validatePath path with
  | .error e => (.error e, st)
  | .ok () =>
    let tree := (lookupA method st.treeByMethod).getD []
    match Tree.build path handler tree with
    | .ok tree2 => (.ok (), ⟨insertA method tree2 st.treeByMethod, st.notFound⟩)
    | .error e => (.error e, ⟨insertA method tree st.treeByMethod, st.notFound⟩)

/-- `RadixRouter.get`: registration under the method `"GET"`. -/
def routerGet {H : Type} (st : RouterState H) (path : List Char) (handler : H) :
    Except String Unit × RouterState H :=
  register st "GET" path handler

/-- `RadixRouter.lookup`: clear the path, traverse the method's tree (an
absent method yields no traversal result), and invoke either the matched
handler with the parsed parameters or the not-found handler with no argument
(`handler(traversedResult?.parsedParams)`).  The result is the pair (invoked
handler, argument it receives). -/
def lookup {H : Type} (st : RouterState H) (method : String) (path : List Char) :
    H × Option (List (List Char × List Char)) :=
  let cleared := clearPath path
  match lookupA method st.treeByMethod with
  | none => (st.notFound, none)
  | some tree =>
    match Tree.traverse tree cleared with
    | none => (st.notFound, none)
    | some (h, ps) => (h, some ps)

/-- A sequence of `register` calls, keeping whatever state each call leaves. -/
def registerAll {H : Type} (st : RouterState H) :
    List (String × List Char × H) → RouterState H
  | [] => st
  | (m, p, h) :: rest => registerAll (register st m p h).2 rest


theorem parseGo_none {path : List Char} {cursor : Nat}
    (h : idxFrom ':' cursor path = none) : parseGo path cursor = [] := by
  rw [parseGo.eq_def]
  split
  · rfl
  · next s hs => rw [h] at hs; cases hs

theorem parseGo_zero {path : List Char} {cursor : Nat}
    (h : idxFrom ':' cursor path = some 0) : parseGo path cursor = [] := by
  rw [parseGo.eq_def]
  split
  · rfl
  · next s hs =>
    rw [h] at hs
    cases hs
    simp

theorem parseGo_cons {path : List Char} {cursor s : Nat}
    (h : idxFrom ':' cursor path = some s) (hz : s ≠ 0) :
    parseGo path cursor =
      Param.mk ((path.drop (s + 1)).take (paramEnd path s - (s + 1))) s (paramEnd path s) ::
        parseGo path (paramEnd path s) := by
  rw [parseGo.eq_def]
  split
  · next hs => rw [h] at hs; cases hs
  · next s' hs =>
    rw [h] at hs
    cases hs
    simp [hz]

theorem travGo_fin {H : Type} {i : Nat} {path : List Char} {tree : TreeMap H}
    {last : Option (Node H)} {acc : List (List Char × List Char)}
    (h : path.length < i) : travGo i path tree last acc = finish last acc := by
  rw [travGo.eq_def]
  simp [h]

theorem travGo_dead {H : Type} {i : Nat} {path : List Char} {tree : TreeMap H}
    {last : Option (Node H)} {acc : List (List Char × List Char)}
    (h : ¬ path.length < i) (hl : lookupA (path.take i) tree = none) :
    travGo i path tree last acc = finish none acc := by
  rw [travGo.eq_def]
  simp [h, hl]

theorem travGo_param {H : Type} {i : Nat} {path : List Char} {tree : TreeMap H}
    {last : Option (Node H)} {acc : List (List Char × List Char)} {n : Node H} {p : Param}
    (h : ¬ path.length < i) (hl : lookupA (path.take i) tree = some n)
    (hp : n.param = some p) :
    travGo i path tree last acc =
      travGo (i + 1) (path.take (i + 1) ++ path.drop (paramEnd path (i + 1))) n.childTree
        (some n)
        (insertA p.name ((path.drop (i + 1)).take (paramEnd path (i + 1) - (i + 1))) acc) := by
  rw [travGo.eq_def]
  simp [h, hl, hp]

theorem travGo_lit {H : Type} {i : Nat} {path : List Char} {tree : TreeMap H}
    {last : Option (Node H)} {acc : List (List Char × List Char)} {n : Node H}
    (h : ¬ path.length < i) (hl : lookupA (path.take i) tree = some n)
    (hp : n.param = none) :
    travGo i path tree last acc = travGo (i + 1) path n.childTree (some n) acc := by
  rw [travGo.eq_def]
  simp [h, hl, hp]

theorem buildGo_fin {H : Type} {params : List Param}
    {hp : ∀ q ∈ params, q.startIndex < q.endIndex} {handler : H} {j : Nat}
    {path : List Char} {n : Node H} (h : path.length < j) :
    buildGo params hp handler j path n = n := by
  rw [buildGo.eq_def]
  simp [h]

theorem buildGo_param {H : Type} {params : List Param}
    {hp : ∀ q ∈ params, q.startIndex < q.endIndex} {handler : H} {j : Nat}
    {path : List Char} {n : Node H} {p : Param}
    (h : ¬ path.length < j) (hf : params.find? (fun q => q.startIndex == j) = some p) :
    buildGo params hp handler j path n =
      Node.mk n.frag (some p) n.handler
        (insertA ((path.take j ++ path.drop p.endIndex).take j)
          (buildGo params hp handler (j + 1) (path.take j ++ path.drop p.endIndex)
            (match lookupA ((path.take j ++ path.drop p.endIndex).take j) n.childTree with
             | some c => c
             | none =>
               if j = (path.take j ++ path.drop p.endIndex).length then
                 Node.mk ((path.take j ++ path.drop p.endIndex).take j) none (some handler) []
               else Node.mk ((path.take j ++ path.drop p.endIndex).take j) none none []))
          n.childTree) := by
  rw [buildGo.eq_def]
  rw [dif_neg h]
  split
  · next p' hfind =>
    rw [hf] at hfind
    cases hfind
    rfl
  · next hfind => rw [hf] at hfind; cases hfind

theorem buildGo_lit {H : Type} {params : List Param}
    {hp : ∀ q ∈ params, q.startIndex < q.endIndex} {handler : H} {j : Nat}
    {path : List Char} {n : Node H}
    (h : ¬ path.length < j) (hf : params.find? (fun q => q.startIndex == j) = none) :
    buildGo params hp handler j path n =
      Node.mk n.frag n.param n.handler
        (insertA (path.take j)
          (buildGo params hp handler (j + 1) path
            (match lookupA (path.take j) n.childTree with
             | some c => c
             | none =>
               if j = path.length then Node.mk (path.take j) none (some handler) []
               else Node.mk (path.take j) none none []))
          n.childTree) := by
  rw [buildGo.eq_def]
  rw [dif_neg h]
  split
  · next p' hfind => rw [hf] at hfind; cases hfind
  · rfl

theorem lookupA_insertA_self {κ α : Type} [DecidableEq κ] (k : κ) (v : α) :
    ∀ t : List (κ × α), lookupA k (insertA k v t) = some v := by
  intro t
  induction t with
  | nil => simp [lookupA, insertA]
  | cons kv t ih =>
    obtain ⟨k', v'⟩ := kv
    by_cases hk : k' = k
    · simp [lookupA, insertA, hk]
    · simp [lookupA, insertA, hk, ih]

theorem lookupA_insertA_ne {κ α : Type} [DecidableEq κ] {k k' : κ} (v : α)
    (hk : k' ≠ k) : ∀ t : List (κ × α), lookupA k' (insertA k v t) = lookupA k' t := by
  intro t
  have hk2 : k ≠ k' := fun h => hk h.symm
  induction t with
  | nil => simp [lookupA, insertA, hk2]
  | cons kv t ih =>
    obtain ⟨k0, v0⟩ := kv
    by_cases h0 : k0 = k
    · subst h0
      simp [lookupA, insertA, hk2]
    · simp [lookupA, insertA, h0, ih]

theorem insertA_eq_of_lookupA {κ α : Type} [DecidableEq κ] {k : κ} {v : α} :
    ∀ {t : List (κ × α)}, lookupA k t = some v → insertA k v t = t := by
  intro t
  induction t with
  | nil => intro h; simp [lookupA] at h
  | cons kv t ih =>
    obtain ⟨k0, v0⟩ := kv
    intro h
    by_cases h0 : k0 = k
    · simp [lookupA, h0] at h
      simp [insertA, h0, h]
    · simp [lookupA, h0] at h
      simp [insertA, h0, ih h]

theorem insertA_insertA {κ α : Type} [DecidableEq κ] (k : κ) (v : α)
    (t : List (κ × α)) : insertA k v (insertA k v t) = insertA k v t :=
  insertA_eq_of_lookupA (lookupA_insertA_self k v t)

theorem lookupA_mem {κ α : Type} [DecidableEq κ] {k : κ} {v : α} :
    ∀ {t : List (κ × α)}, lookupA k t = some v → (k, v) ∈ t := by
  intro t
  induction t with
  | nil => intro h; simp [lookupA] at h
  | cons kv t ih =>
    obtain ⟨k0, v0⟩ := kv
    intro h
    by_cases h0 : k0 = k
    · subst h0
      simp [lookupA] at h
      simp [h]
    · simp [lookupA, h0] at h
      simp [ih h]

theorem mem_insertA {κ α : Type} [DecidableEq κ] {k : κ} {v : α} {kv : κ × α} :
    ∀ {t : List (κ × α)}, kv ∈ insertA k v t → kv = (k, v) ∨ kv ∈ t := by
  intro t
  induction t with
  | nil => intro h; simp [insertA] at h; simp [h]
  | cons kv0 t ih =>
    obtain ⟨k0, v0⟩ := kv0
    intro h
    by_cases h0 : k0 = k
    · simp [insertA, h0] at h
      rcases h with h | h
      · exact Or.inl (by simp [h])
      · exact Or.inr (by simp [h])
    · simp [insertA, h0] at h
      rcases h with h | h
      · exact Or.inr (by simp [h])
      · rcases ih h with h' | h'
        · exact Or.inl h'
        · exact Or.inr (by simp [h'])

/-- Proof-layer abstraction of the traversal loop, ignoring parameter capture:
the node reached by successive lookups of the prefixes `q.take i`, with `last`
the loop's `node` variable from the previous iteration. -/
def walkGo {H : Type} (i : Nat) (q : List Char) (tree : TreeMap H)
    (last : Option (Node H)) : Option (Node H) :=
  if q.length < i then last
  else
    match lookupA (q.take i) tree with
    | none => none
    | some n => walkGo (i + 1) q n.childTree (some n)
termination_by q.length + 1 - i

/-- The node the traversal loop ends on for path `q` from the root. -/
def walkNode {H : Type} (tree : TreeMap H) (q : List Char) : Option (Node H) :=
  walkGo 1 q tree none

theorem walkGo_fin {H : Type} {i : Nat} {q : List Char} {tree : TreeMap H}
    {last : Option (Node H)} (h : q.length < i) : walkGo i q tree last = last := by
  rw [walkGo.eq_def]
  simp [h]

theorem walkGo_dead {H : Type} {i : Nat} {q : List Char} {tree : TreeMap H}
    {last : Option (Node H)} (h : ¬ q.length < i)
    (hl : lookupA (q.take i) tree = none) : walkGo i q tree last = none := by
  rw [walkGo.eq_def]
  simp [h, hl]

theorem walkGo_step {H : Type} {i : Nat} {q : List Char} {tree : TreeMap H}
    {last : Option (Node H)} {n : Node H} (h : ¬ q.length < i)
    (hl : lookupA (q.take i) tree = some n) :
    walkGo i q tree last = walkGo (i + 1) q n.childTree (some n) := by
  rw [walkGo.eq_def]
  simp [h, hl]

/-- The existing or freshly created node for the prefix `p0.take j` in `t`. -/
def bchild {H : Type} (handler : H) (p0 : List Char) (j : Nat) (t : TreeMap H) : Node H :=
  match lookupA (p0.take j) t with
  | some c => c
  | none =>
    if j = p0.length then Node.mk (p0.take j) none (some handler) []
    else Node.mk (p0.take j) none none []

/-- Proof-layer twin of `buildGo` for a parameter-free path, expressed as a
transformation of the child dictionary: extend the chain of prefixes of `p0`
from depth `j`, creating missing nodes (a Leaf exactly at the terminal
depth) and leaving everything off the chain untouched. -/
def bset {H : Type} (handler : H) (p0 : List Char) (j : Nat) (t : TreeMap H) : TreeMap H :=
  if p0.length < j then t
  else
    let frag := p0.take j
    let c0 : Node H :=
      match lookupA frag t with
      | some c => c
      | none =>
        if j = p0.length then Node.mk frag none (some handler) []
        else Node.mk frag none none []
    insertA frag (Node.mk c0.frag c0.param c0.handler (bset handler p0 (j + 1) c0.childTree)) t
termination_by p0.length + 1 - j

theorem bset_fin {H : Type} {handler : H} {p0 : List Char} {j : Nat} {t : TreeMap H}
    (h : p0.length < j) : bset handler p0 j t = t := by
  rw [bset.eq_def]
  simp [h]

theorem bset_step {H : Type} {handler : H} {p0 : List Char} {j : Nat} {t : TreeMap H}
    (h : ¬ p0.length < j) :
    bset handler p0 j t =
      insertA (p0.take j)
        (Node.mk (bchild handler p0 j t).frag (bchild handler p0 j t).param
          (bchild handler p0 j t).handler
          (bset handler p0 (j + 1) (bchild handler p0 j t).childTree)) t := by
  rw [bset.eq_def]
  rw [if_neg h]
  rfl

/-- Which handler a path `p` resolves to after the literal registrations `L`,
in specification terms: the first registered path having `p` as a prefix must
be `p` itself; any other situation is no match. -/
def specLeaf {H : Type} (L : List (List Char × H)) (p : List Char) : Option H :=
  match L.find? (fun e => p == e.1.take p.length) with
  | some e => if e.1 = p then some e.2 else none
  | none => none

/-- All nodes of `t` down to depth `d` carry no parameter descriptor. -/
def freeTo {H : Type} : Nat → TreeMap H → Prop
  | 0, _ => True
  | d + 1, t => ∀ kv ∈ t, (kv.2 : Node H).param = none ∧ freeTo d kv.2.childTree

/-- All nodes of `t` carry no parameter descriptor. -/
def PF {H : Type} (t : TreeMap H) : Prop :=
  ∀ d, freeTo d t

/-- The dictionary the router holds for `method` (empty when absent). -/
def mtree {H : Type} (st : RouterState H) (method : String) : TreeMap H :=
  (lookupA method st.treeByMethod).getD []

/-- The observable part of a walk's result: whether a node was reached and,
if so, its handler and parameter attachment. -/
def projN {H : Type} : Option (Node H) → Option (Option H × Option Param) :=
  Option.map (fun n => (n.handler, n.param))

theorem PF_nil {H : Type} : PF ([] : TreeMap H) := by
  intro d
  cases d <;> simp [freeTo]

theorem PF_lookup {H : Type} {t : TreeMap H} (hp : PF t) {k : List Char} {n : Node H}
    (hl : lookupA k t = some n) : n.param = none ∧ PF n.childTree := by
  have hmem := lookupA_mem hl
  refine ⟨(hp 1 (k, n) hmem).1, fun d => (hp (d + 1) (k, n) hmem).2⟩

theorem PF_insert {H : Type} {t : TreeMap H} (hp : PF t) {k : List Char} {v : Node H}
    (hv : v.param = none) (hc : PF v.childTree) : PF (insertA k v t) := by
  intro d
  cases d with
  | zero => trivial
  | succ d =>
    intro kv hkv
    rcases mem_insertA hkv with h | h
    · subst h
      exact ⟨hv, hc d⟩
    · exact hp (d + 1) kv h

/-- On a parameter-free tree the traversal loop is the plain walk: no value is
ever captured and the match is decided by the handler of the reached node. -/
theorem travGo_eq_walkGo {H : Type} : ∀ (fuel i : Nat) (path : List Char) (t : TreeMap H)
    (last : Option (Node H)) (acc : List (List Char × List Char)),
    path.length + 1 - i ≤ fuel → PF t → (∀ n, last = some n → n.param = none) →
    travGo i path t last acc =
      (match walkGo i path t last with
       | some n =>
         match n.handler with
         | some h => some (h, acc)
         | none => none
       | none => none) := by
  intro fuel
  induction fuel with
  | zero =>
    intro i path t last acc hf hp hl
    have hlt : path.length < i := by omega
    rw [travGo_fin hlt, walkGo_fin hlt]
    cases last with
    | none => simp [finish]
    | some n => simp [finish]
  | succ m ih =>
    intro i path t last acc hf hp hl
    by_cases hlt : path.length < i
    · rw [travGo_fin hlt, walkGo_fin hlt]
      cases last with
      | none => simp [finish]
      | some n => simp [finish]
    · cases hlk : lookupA (path.take i) t with
      | none =>
        rw [travGo_dead hlt hlk, walkGo_dead hlt hlk]
        simp [finish]
      | some n =>
        obtain ⟨hnp, hnc⟩ := PF_lookup hp hlk
        rw [travGo_lit hlt hlk hnp, walkGo_step hlt hlk]
        exact ih (i + 1) path n.childTree (some n) acc (by omega) hnc
          (fun n' hn' => by cases hn'; exact hnp)

/-- On a parameter-free tree, `Tree.traverse` is decided by the walk. -/
theorem traverse_eq_walkNode {H : Type} {t : TreeMap H} (hp : PF t) (p : List Char) :
    Tree.traverse t p =
      (match walkNode t p with
       | some n =>
         match n.handler with
         | some h => some (h, ([] : List (List Char × List Char)))
         | none => none
       | none => none) :=
  travGo_eq_walkGo (p.length + 1 - 1) 1 p t none [] (Nat.le_refl _) hp
    (fun n hn => by cases hn)

/-- For a parameter-free registration path, `buildGo` is exactly the `bset`
transformation of the node's child dictionary. -/
theorem buildGo_nil_eq_bset {H : Type} (h0 : H)
    (hp : ∀ q ∈ ([] : List Param), q.startIndex < q.endIndex) :
    ∀ (fuel j : Nat) (p0 : List Char) (n : Node H), p0.length + 1 - j ≤ fuel →
    buildGo [] hp h0 j p0 n =
      Node.mk n.frag n.param n.handler (bset h0 p0 j n.childTree) := by
  intro fuel
  induction fuel with
  | zero =>
    intro j p0 n hf
    have hlt : p0.length < j := by omega
    rw [buildGo_fin hlt, bset_fin hlt, Node.eta]
  | succ m ih =>
    intro j p0 n hf
    by_cases hlt : p0.length < j
    · rw [buildGo_fin hlt, bset_fin hlt, Node.eta]
    · rw [buildGo_lit hlt (by simp [List.find?]), bset_step hlt]
      have hchild : (match lookupA (p0.take j) n.childTree with
          | some c => c
          | none =>
            if j = p0.length then Node.mk (p0.take j) none (some h0) []
            else Node.mk (p0.take j) none none []) = bchild h0 p0 j n.childTree := rfl
      rw [hchild]
      rw [ih (j + 1) p0 (bchild h0 p0 j n.childTree) (by omega)]

/-- `bset` keeps a tree parameter-free. -/
theorem PF_bset {H : Type} (h0 : H) :
    ∀ (fuel j : Nat) (p0 : List Char) (t : TreeMap H), p0.length + 1 - j ≤ fuel →
    PF t → PF (bset h0 p0 j t) := by
  intro fuel
  induction fuel with
  | zero =>
    intro j p0 t hf hp
    have hlt : p0.length < j := by omega
    rw [bset_fin hlt]
    exact hp
  | succ m ih =>
    intro j p0 t hf hp
    by_cases hlt : p0.length < j
    · rw [bset_fin hlt]
      exact hp
    · rw [bset_step hlt]
      have hb : (bchild h0 p0 j t).param = none ∧ PF (bchild h0 p0 j t).childTree := by
        unfold bchild
        cases hlk : lookupA (p0.take j) t with
        | some c => exact PF_lookup hp hlk
        | none =>
          by_cases hj : j = p0.length <;>
            simp [hj, Node.param, Node.childTree, PF_nil]
      refine PF_insert hp ?_ ?_
      · simpa [Node.param] using hb.1
      · have := ih (j + 1) p0 (bchild h0 p0 j t).childTree (by omega) hb.2
        simpa [Node.childTree] using this

theorem parseParams_literal {path : List Char} (h : ':' ∉ path) : parseParams path = [] := by
  unfold parseParams
  exact parseGo_none (idxFrom_none_of_not_mem h)

/-- Building a parameter-free, non-empty path applies `bset` to the root and
raises nothing. -/
theorem build_literal {H : Type} (path : List Char) (h0 : H) (root : TreeMap H)
    (hne : path ≠ []) (hlit : ':' ∉ path) :
    Tree.build path h0 root = .ok (bset h0 path 1 root) := by
  have hlen : ¬ path.length < 1 := by
    cases path with
    | nil => exact absurd rfl hne
    | cons a t => simp
  unfold Tree.build
  rw [dif_neg hlen]
  simp only [parseParams_literal hlit, List.find?]
  rw [buildGo_nil_eq_bset h0 _ (path.length + 1 - 2) 2 path _ (Nat.le_refl _)]
  rw [bset_step hlen]
  rfl

theorem projN_none {H : Type} : projN (none : Option (Node H)) = none := rfl

theorem projN_some {H : Type} (n : Node H) : projN (some n) = some (n.handler, n.param) := rfl

theorem lookupA_nil {κ α : Type} [DecidableEq κ] (k : κ) :
    lookupA k ([] : List (κ × α)) = none := rfl

theorem walkGo_proj_congr {H : Type} {i : Nat} {q : List Char} {t : TreeMap H}
    {last last' : Option (Node H)} (h : projN last = projN last') :
    projN (walkGo i q t last) = projN (walkGo i q t last') := by
  by_cases hlt : q.length < i
  · rw [walkGo_fin hlt, walkGo_fin hlt]
    exact h
  · cases hlk : lookupA (q.take i) t with
    | none => rw [walkGo_dead hlt hlk, walkGo_dead hlt hlk]
    | some n => rw [walkGo_step hlt hlk, walkGo_step hlt hlk]

theorem take_eq_of_spine {p0 q : List Char} {j : Nat} (hE : q = p0.take q.length)
    (hlen : j ≤ q.length) : q.take j = p0.take j ∧ j ≤ p0.length := by
  have hql : q.length ≤ p0.length := by
    have := congrArg List.length hE
    simp [List.length_take] at this
    omega
  constructor
  · conv_lhs => rw [hE]
    rw [List.take_take]
    congr 1
    omega
  · omega

/-- How `bset` changes the walks: a nonempty spine prefix `q` of `p0` (from
depth `j`) is now always reachable, ending in a node whose handler is the old
node's if one existed, else the registered handler exactly at full depth;
every other walk is observably unchanged. -/
theorem bset_walk {H : Type} (h0 : H) (p0 : List Char) :
    ∀ (fuel j : Nat) (t : TreeMap H) (last last' : Option (Node H)) (q : List Char),
    p0.length + 1 - j ≤ fuel → projN last = projN last' →
    projN (walkGo j q (bset h0 p0 j t) last') =
      if q.length < j then projN last
      else if j ≤ p0.length ∧ q.take j = p0.take j ∧ q = p0.take q.length then
        some (match walkGo j q t last with
          | some n => (n.handler, n.param)
          | none => ((if q.length = p0.length then some h0 else none), none))
      else projN (walkGo j q t last) := by
  intro fuel
  induction fuel with
  | zero =>
    intro j t last last' q hf hpr
    have hlt : p0.length < j := by omega
    rw [bset_fin hlt]
    by_cases hq : q.length < j
    · rw [if_pos hq, walkGo_fin hq]
      exact hpr.symm
    · rw [if_neg hq, if_neg (fun hc => by omega : ¬(j ≤ p0.length ∧ q.take j = p0.take j ∧ q = p0.take q.length))]
      exact walkGo_proj_congr hpr.symm
  | succ m ih =>
    intro j t last last' q hf hpr
    by_cases hlt : p0.length < j
    · rw [bset_fin hlt]
      by_cases hq : q.length < j
      · rw [if_pos hq, walkGo_fin hq]
        exact hpr.symm
      · rw [if_neg hq, if_neg (fun hc => by omega : ¬(j ≤ p0.length ∧ q.take j = p0.take j ∧ q = p0.take q.length))]
        exact walkGo_proj_congr hpr.symm
    · rw [bset_step hlt]
      by_cases hq : q.length < j
      · rw [if_pos hq, walkGo_fin hq]
        exact hpr.symm
      · rw [if_neg hq]
        by_cases hqp : q.take j = p0.take j
        · -- the walk enters the modified chain
          have hkey : lookupA (q.take j)
              (insertA (p0.take j)
                (Node.mk (bchild h0 p0 j t).frag (bchild h0 p0 j t).param
                  (bchild h0 p0 j t).handler
                  (bset h0 p0 (j + 1) (bchild h0 p0 j t).childTree)) t) =
              some (Node.mk (bchild h0 p0 j t).frag (bchild h0 p0 j t).param
                (bchild h0 p0 j t).handler
                (bset h0 p0 (j + 1) (bchild h0 p0 j t).childTree)) := by
            rw [hqp]
            exact lookupA_insertA_self _ _ t
          rw [walkGo_step hq hkey]
          simp only [childTree_mk]
          cases hlk : lookupA (p0.take j) t with
          | some c0 =>
            have hbc : bchild h0 p0 j t = c0 := by
              unfold bchild
              rw [hlk]
            have hlkq : lookupA (q.take j) t = some c0 := by
              rw [hqp]
              exact hlk
            rw [hbc]
            have hIH := ih (j + 1) c0.childTree (some c0)
              (some (Node.mk c0.frag c0.param c0.handler
                (bset h0 p0 (j + 1) c0.childTree))) q (by omega)
              (by simp [projN_some, handler_mk, param_mk])
            rw [hIH]
            have hstep : walkGo j q t last = walkGo (j + 1) q c0.childTree (some c0) :=
              walkGo_step hq hlkq
            by_cases hql1 : q.length < j + 1
            · rw [if_pos hql1]
              have hqlen : q.length = j := by omega
              have hqq : q = p0.take q.length := by
                rw [hqlen, ← hqp, List.take_of_length_le (by omega)]
              have hMq : j ≤ p0.length ∧ q.take j = p0.take j ∧ q = p0.take q.length :=
                ⟨by omega, hqp, hqq⟩
              rw [if_pos hMq]
              rw [hstep, walkGo_fin hql1]
              rfl
            · rw [if_neg hql1]
              by_cases hE : q = p0.take q.length
              · have hM' := take_eq_of_spine hE (by omega : j + 1 ≤ q.length)
                have hMp : j + 1 ≤ p0.length ∧ q.take (j + 1) = p0.take (j + 1) ∧
                    q = p0.take q.length := ⟨hM'.2, hM'.1, hE⟩
                have hMq : j ≤ p0.length ∧ q.take j = p0.take j ∧ q = p0.take q.length :=
                  ⟨by omega, hqp, hE⟩
                rw [if_pos hMp, if_pos hMq, hstep]
              · have hMp : ¬(j + 1 ≤ p0.length ∧ q.take (j + 1) = p0.take (j + 1) ∧
                    q = p0.take q.length) := fun hc => hE hc.2.2
                have hMq : ¬(j ≤ p0.length ∧ q.take j = p0.take j ∧ q = p0.take q.length) :=
                  fun hc => hE hc.2.2
                rw [if_neg hMp, if_neg hMq, hstep]
          | none =>
            have hbc : bchild h0 p0 j t =
                (if j = p0.length then Node.mk (p0.take j) none (some h0) []
                 else Node.mk (p0.take j) none none []) := by
              unfold bchild
              rw [hlk]
            have hfh : (bchild h0 p0 j t).handler = (if j = p0.length then some h0 else none) := by
              rw [hbc]
              by_cases hj : j = p0.length <;> simp [hj, handler_mk]
            have hfp : (bchild h0 p0 j t).param = none := by
              rw [hbc]
              by_cases hj : j = p0.length <;> simp [hj, param_mk]
            have hfc : (bchild h0 p0 j t).childTree = [] := by
              rw [hbc]
              by_cases hj : j = p0.length <;> simp [hj, childTree_mk]
            have hlkq : lookupA (q.take j) t = none := by
              rw [hqp]
              exact hlk
            have hdead : walkGo j q t last = none := walkGo_dead hq hlkq
            rw [hfc]
            have hIH := ih (j + 1) ([] : TreeMap H) (some (bchild h0 p0 j t))
              (some (Node.mk (bchild h0 p0 j t).frag (bchild h0 p0 j t).param
                (bchild h0 p0 j t).handler (bset h0 p0 (j + 1) []))) q (by omega)
              (by simp [projN_some, handler_mk, param_mk])
            rw [hIH]
            by_cases hql1 : q.length < j + 1
            · rw [if_pos hql1]
              have hqlen : q.length = j := by omega
              have hqq : q = p0.take q.length := by
                rw [hqlen, ← hqp, List.take_of_length_le (by omega)]
              have hMq : j ≤ p0.length ∧ q.take j = p0.take j ∧ q = p0.take q.length :=
                ⟨by omega, hqp, hqq⟩
              rw [if_pos hMq, hdead, hqlen]
              simp [projN_some, hfh, hfp]
            · rw [if_neg hql1]
              have hdead1 : walkGo (j + 1) q ([] : TreeMap H) (some (bchild h0 p0 j t)) = none :=
                walkGo_dead hql1 (lookupA_nil _)
              by_cases hE : q = p0.take q.length
              · have hM' := take_eq_of_spine hE (by omega : j + 1 ≤ q.length)
                have hMp : j + 1 ≤ p0.length ∧ q.take (j + 1) = p0.take (j + 1) ∧
                    q = p0.take q.length := ⟨hM'.2, hM'.1, hE⟩
                have hMq : j ≤ p0.length ∧ q.take j = p0.take j ∧ q = p0.take q.length :=
                  ⟨by omega, hqp, hE⟩
                rw [if_pos hMp, if_pos hMq, hdead, hdead1]
              · have hMp : ¬(j + 1 ≤ p0.length ∧ q.take (j + 1) = p0.take (j + 1) ∧
                    q = p0.take q.length) := fun hc => hE hc.2.2
                have hMq : ¬(j ≤ p0.length ∧ q.take j = p0.take j ∧ q = p0.take q.length) :=
                  fun hc => hE hc.2.2
                rw [if_neg hMp, if_neg hMq, hdead, hdead1]
        · -- the walk leaves the chain at depth j: nothing observable changes
          have hkey : lookupA (q.take j)
              (insertA (p0.take j)
                (Node.mk (bchild h0 p0 j t).frag (bchild h0 p0 j t).param
                  (bchild h0 p0 j t).handler
                  (bset h0 p0 (j + 1) (bchild h0 p0 j t).childTree)) t) =
              lookupA (q.take j) t :=
            lookupA_insertA_ne _ hqp t
          have hMq : ¬(j ≤ p0.length ∧ q.take j = p0.take j ∧ q = p0.take q.length) :=
            fun hc => hqp hc.2.1
          rw [if_neg hMq]
          cases hlk : lookupA (q.take j) t with
          | none => rw [walkGo_dead hq (hkey.trans hlk), walkGo_dead hq hlk]
          | some n => rw [walkGo_step hq (hkey.trans hlk), walkGo_step hq hlk]

/-- The file's router-level invariant after the literal registrations `L`
(in registration order): the tree is parameter-free, a walk reaches a node
exactly for the nonempty prefixes of registered paths, and the handler found
at the end of a completed walk is `specLeaf L`. -/
def INV {H : Type} (L : List (List Char × H)) (t : TreeMap H) : Prop :=
  PF t ∧
  (∀ q : List Char, (walkNode t q).isSome ↔ (q ≠ [] ∧ ∃ e ∈ L, q = e.1.take q.length)) ∧
  (∀ q n, walkNode t q = some n → n.handler = specLeaf L q)

theorem walkNode_nil {H : Type} (q : List Char) : walkNode ([] : TreeMap H) q = none := by
  unfold walkNode
  by_cases h : q.length < 1
  · exact walkGo_fin h
  · exact walkGo_dead h (lookupA_nil _)

theorem traverse_nil {H : Type} (q : List Char) :
    Tree.traverse ([] : TreeMap H) q = none := by
  unfold Tree.traverse
  by_cases h : q.length < 1
  · rw [travGo_fin h]
    rfl
  · rw [travGo_dead h (lookupA_nil _)]
    rfl

theorem INV_nil {H : Type} : INV ([] : List (List Char × H)) ([] : TreeMap H) := by
  refine ⟨PF_nil, ?_, ?_⟩
  · intro q
    rw [walkNode_nil, Option.isSome_none]
    constructor
    · intro hc
      exact Bool.noConfusion hc
    · rintro ⟨-, e, he, -⟩
      exact absurd he (List.not_mem_nil e)
  · intro q n h
    rw [walkNode_nil] at h
    cases h

theorem isSome_projN {H : Type} (o : Option (Node H)) :
    (projN o).isSome = o.isSome := by
  cases o <;> rfl

theorem spine_of_ne_nil {p0 q : List Char} (hne : q ≠ [])
    (hE : q = p0.take q.length) :
    1 ≤ p0.length ∧ q.take 1 = p0.take 1 ∧ q = p0.take q.length := by
  have h1 : 1 ≤ q.length := by
    cases q with
    | nil => exact absurd rfl hne
    | cons a t => simp
  have := take_eq_of_spine hE h1
  exact ⟨this.2, this.1, hE⟩

/-- One literal registration preserves the invariant, appending the new pair. -/
theorem INV_step {H : Type} {L : List (List Char × H)} {t : TreeMap H} (hI : INV L t)
    (p0 : List Char) (h0 : H) (hne : p0 ≠ []) :
    INV (L ++ [(p0, h0)]) (bset h0 p0 1 t) := by
  obtain ⟨hPF, hEx, hH⟩ := hI
  have hw : ∀ q : List Char, projN (walkGo 1 q (bset h0 p0 1 t) none) =
      if q.length < 1 then projN (none : Option (Node H))
      else if 1 ≤ p0.length ∧ q.take 1 = p0.take 1 ∧ q = p0.take q.length then
        some (match walkGo 1 q t none with
          | some n => (n.handler, n.param)
          | none => ((if q.length = p0.length then some h0 else none), none))
      else projN (walkGo 1 q t none) :=
    fun q => bset_walk h0 p0 (p0.length + 1 - 1) 1 t none none q (Nat.le_refl _) rfl
  refine ⟨PF_bset h0 (p0.length + 1 - 1) 1 p0 t (Nat.le_refl _) hPF, ?_, ?_⟩
  · intro q
    by_cases hq0 : q = []
    · subst hq0
      have hwn : walkNode (bset h0 p0 1 t) ([] : List Char) = none := by
        unfold walkNode
        exact walkGo_fin (by simp)
      rw [hwn, Option.isSome_none]
      constructor
      · intro hc
        exact Bool.noConfusion hc
      · rintro ⟨hc, -⟩
        exact absurd rfl hc
    · have hq1 : ¬ q.length < 1 := by
        cases q with
        | nil => exact absurd rfl hq0
        | cons a tq => simp
      rw [← isSome_projN]
      unfold walkNode
      rw [hw q, if_neg hq1]
      by_cases hE : q = p0.take q.length
      · rw [if_pos (spine_of_ne_nil hq0 hE)]
        simp only [Option.isSome_some, true_iff]
        exact ⟨hq0, (p0, h0), by simp, hE⟩
      · have hM : ¬(1 ≤ p0.length ∧ q.take 1 = p0.take 1 ∧ q = p0.take q.length) :=
          fun hc => hE hc.2.2
        rw [if_neg hM, isSome_projN]
        have := hEx q
        unfold walkNode at this
        rw [this]
        constructor
        · rintro ⟨-, e, heL, hee⟩
          exact ⟨hq0, e, by simp [heL], hee⟩
        · rintro ⟨-, e, heL, hee⟩
          rcases List.mem_append.1 heL with h | h
          · exact ⟨hq0, e, h, hee⟩
          · simp at h
            subst h
            exact absurd hee hE
  · intro q n' hwq
    have hq0 : q ≠ [] := by
      intro h
      subst h
      unfold walkNode at hwq
      rw [walkGo_fin (by simp)] at hwq
      cases hwq
    have hq1 : ¬ q.length < 1 := by
      cases q with
      | nil => exact absurd rfl hq0
      | cons a tq => simp
    have hp' : projN (walkGo 1 q (bset h0 p0 1 t) none) = some (n'.handler, n'.param) := by
      unfold walkNode at hwq
      rw [hwq]
      rfl
    rw [hw q, if_neg hq1] at hp'
    by_cases hE : q = p0.take q.length
    · rw [if_pos (spine_of_ne_nil hq0 hE)] at hp'
      cases hwt : walkGo 1 q t none with
      | some n =>
        rw [hwt] at hp'
        have hnh : n'.handler = n.handler := by
          have := Option.some.inj hp'
          exact congrArg Prod.fst this.symm
        have hfindL : (L.find? (fun e => q == e.1.take q.length)).isSome := by
          rw [List.find?_isSome]
          have := (hEx q).1 (by unfold walkNode; rw [hwt]; rfl)
          obtain ⟨-, e, heL, hee⟩ := this
          exact ⟨e, heL, beq_iff_eq.mpr hee⟩
        obtain ⟨e', hfind⟩ := Option.isSome_iff_exists.1 hfindL
        have hspec : specLeaf (L ++ [(p0, h0)]) q = specLeaf L q := by
          unfold specLeaf
          rw [List.find?_append, hfind]
          rfl
        rw [hspec, hnh]
        exact hH q n (by unfold walkNode; exact hwt)
      | none =>
        rw [hwt] at hp'
        have hnh : n'.handler = (if q.length = p0.length then some h0 else none) := by
          have := Option.some.inj hp'
          exact congrArg Prod.fst this.symm
        have hfindL : L.find? (fun e => q == e.1.take q.length) = none := by
          rw [List.find?_eq_none]
          intro e heL
          simp only [beq_iff_eq]
          intro hee
          have : (walkNode t q).isSome := (hEx q).2 ⟨hq0, e, heL, hee⟩
          unfold walkNode at this
          rw [hwt] at this
          cases this
        have hbeq : (q == p0.take q.length) = true := beq_iff_eq.mpr hE
        have hspec : specLeaf (L ++ [(p0, h0)]) q =
            (if p0 = q then some h0 else none) := by
          unfold specLeaf
          rw [List.find?_append, hfindL]
          simp only [Option.none_or, List.find?, hbeq]
        rw [hspec, hnh]
        by_cases hqe : p0 = q
        · subst hqe
          simp
        · have hlen2 : ¬ q.length = p0.length := by
            intro hl
            apply hqe
            have hq_eq : q = p0 := by
              conv_lhs => rw [hE]
              rw [hl, List.take_length]
            exact hq_eq.symm
          rw [if_neg hlen2, if_neg hqe]
    · have hM : ¬(1 ≤ p0.length ∧ q.take 1 = p0.take 1 ∧ q = p0.take q.length) :=
        fun hc => hE hc.2.2
      rw [if_neg hM] at hp'
      cases hwt : walkGo 1 q t none with
      | none =>
        rw [hwt] at hp'
        cases hp'
      | some n =>
        rw [hwt] at hp'
        have hnh : n'.handler = n.handler := by
          have := Option.some.inj hp'
          exact congrArg Prod.fst this.symm
        have hspec : specLeaf (L ++ [(p0, h0)]) q = specLeaf L q := by
          unfold specLeaf
          have hbeq : (q == p0.take q.length) = false := by
            rw [beq_eq_false_iff_ne]
            exact hE
          have hx : List.find? (fun e => q == e.1.take q.length) [(p0, h0)] = none := by
            simp only [List.find?, hbeq]
          rw [List.find?_append, hx, Option.or_none]
        rw [hspec, hnh]
        exact hH q n (by unfold walkNode; exact hwt)

instance exceptStringUnitDecEq : DecidableEq (Except String Unit) := fun a b =>
  match a, b with
  | .ok u, .ok v => isTrue (by cases u; cases v; rfl)
  | .error e1, .error e2 =>
    if h : e1 = e2 then isTrue (by rw [h])
    else isFalse (fun hc => h (by cases hc; rfl))
  | .ok _, .error _ => isFalse (fun hc => by cases hc)
  | .error _, .ok _ => isFalse (fun hc => by cases hc)

/-- The conditions `RadixRouter.#validatePath` checks (beyond the typing
assertions): starts with `/`, does not end with `/` while longer than one
character, does not end with `:`. -/
def validOK (path : List Char) : Prop :=
  path.take 1 = ['/'] ∧ ¬(1 < path.length ∧ path.getLast? = some '/') ∧
    path.getLast? ≠ some ':'

instance validOK_dec (path : List Char) : Decidable (validOK path) := by
  unfold validOK
  infer_instance

theorem validatePath_ok_iff (path : List Char) :
    validatePath path = .ok () ↔ validOK path := by
  unfold validatePath validOK
  by_cases h1 : path.take 1 = ['/'] <;>
    by_cases h2 : 1 < path.length ∧ path.getLast? = some '/' <;>
      by_cases h3 : path.getLast? = some ':' <;>
        simp [h1, h2, h3]

theorem validOK_ne_nil {path : List Char} (hv : validOK path) : path ≠ [] := by
  intro h
  subst h
  simp [validOK] at hv

theorem clearPath_of_validOK {path : List Char} (hv : validOK path) :
    clearPath path = path := by
  unfold clearPath
  rw [if_neg hv.2.1]

/-- A valid parameter-free registration stores `bset` of the method's tree. -/
theorem register_literal {H : Type} (st : RouterState H) (m : String) (p : List Char)
    (h : H) (hv : validOK p) (hlit : ':' ∉ p) :
    register st m p h =
      (.ok (), ⟨insertA m (bset h p 1 (mtree st m)) st.treeByMethod, st.notFound⟩) := by
  have hb : Tree.build p h ((lookupA m st.treeByMethod).getD []) =
      .ok (bset h p 1 (mtree st m)) :=
    build_literal p h _ (validOK_ne_nil hv) hlit
  unfold register
  rw [(validatePath_ok_iff p).2 hv]
  simp only [hb]

/-- The registrations of `L` that target method `m`, in order. -/
def filterM {H : Type} (m : String) (L : List (String × List Char × H)) :
    List (List Char × H) :=
  (L.filter (fun e => e.1 == m)).map (fun e => e.2)

theorem filterM_nil {H : Type} (m : String) :
    filterM m ([] : List (String × List Char × H)) = [] := rfl

theorem filterM_cons {H : Type} (m m0 : String) (p0 : List Char) (h0 : H)
    (rest : List (String × List Char × H)) :
    filterM m ((m0, p0, h0) :: rest) =
      (if m0 = m then [(p0, h0)] else []) ++ filterM m rest := by
  unfold filterM
  by_cases hm : m0 = m
  · have hbeq : (m0 == m) = true := beq_iff_eq.mpr hm
    simp [List.filter, hbeq, hm]
  · have hbeq : (m0 == m) = false := by
      rw [beq_eq_false_iff_ne]
      exact hm
    simp [List.filter, hbeq, hm]

theorem mtree_insert_self {H : Type} (st : RouterState H) (m : String) (t : TreeMap H) :
    mtree ⟨insertA m t st.treeByMethod, st.notFound⟩ m = t := by
  unfold mtree
  rw [lookupA_insertA_self]
  rfl

theorem mtree_insert_ne {H : Type} (st : RouterState H) {m m' : String} (t : TreeMap H)
    (hm : m ≠ m') : mtree ⟨insertA m t st.treeByMethod, st.notFound⟩ m' = mtree st m' := by
  unfold mtree
  rw [lookupA_insertA_ne _ (fun hc => hm hc.symm)]

/-- Folding literal registrations preserves the per-method invariant. -/
theorem registerAll_inv {H : Type} :
    ∀ (L : List (String × List Char × H)) (st : RouterState H)
      (P : String → List (List Char × H)),
    (∀ e ∈ L, validOK e.2.1 ∧ ':' ∉ e.2.1) →
    (∀ m, INV (P m) (mtree st m)) →
    ∀ m, INV (P m ++ filterM m L) (mtree (registerAll st L) m) := by
  intro L
  induction L with
  | nil =>
    intro st P hv hI m
    rw [filterM_nil, List.append_nil]
    exact hI m
  | cons e rest ih =>
    obtain ⟨m0, p0, h0⟩ := e
    intro st P hv hI m
    have hv0 := hv (m0, p0, h0) (List.mem_cons_self _ _)
    have hreg := register_literal st m0 p0 h0 hv0.1 hv0.2
    have hstep : registerAll st ((m0, p0, h0) :: rest) =
        registerAll (register st m0 p0 h0).2 rest := rfl
    rw [hstep, hreg]
    have hI1 : ∀ m', INV (P m' ++ filterM m' [(m0, p0, h0)])
        (mtree ⟨insertA m0 (bset h0 p0 1 (mtree st m0)) st.treeByMethod, st.notFound⟩ m') := by
      intro m'
      by_cases hm : m0 = m'
      · subst hm
        rw [mtree_insert_self]
        rw [filterM_cons, filterM_nil, List.append_nil, if_pos rfl]
        exact INV_step (hI m0) p0 h0 (validOK_ne_nil hv0.1)
      · rw [mtree_insert_ne st _ hm]
        rw [filterM_cons, filterM_nil, List.append_nil, if_neg hm, List.append_nil]
        exact hI m'
    have := ih ⟨insertA m0 (bset h0 p0 1 (mtree st m0)) st.treeByMethod, st.notFound⟩
      (fun m' => P m' ++ filterM m' [(m0, p0, h0)])
      (fun e he => hv e (List.mem_cons_of_mem _ he)) hI1 m
    rw [filterM_cons]
    rw [← List.append_assoc]
    have hone : filterM m [(m0, p0, h0)] = (if m0 = m then [(p0, h0)] else []) := by
      rw [filterM_cons, filterM_nil, List.append_nil]
    rw [← hone]
    exact this

theorem mtree_empty {H : Type} (nf : H) (m : String) : mtree (emptyRouter nf) m = [] := rfl

/-- The per-method invariant for a router built from scratch by literal,
valid registrations. -/
theorem router_inv {H : Type} (nf : H) (L : List (String × List Char × H))
    (hv : ∀ e ∈ L, validOK e.2.1 ∧ ':' ∉ e.2.1) (m : String) :
    INV (filterM m L) (mtree (registerAll (emptyRouter nf) L) m) := by
  have := registerAll_inv L (emptyRouter nf) (fun _ => []) hv
    (fun m' => by rw [mtree_empty]; exact INV_nil) m
  simpa using this

/-- `lookup` through the `mtree` view (an absent method behaves like an
empty tree, whose traversal always misses). -/
theorem lookup_eq_traverse {H : Type} (st : RouterState H) (m : String) (p : List Char) :
    lookup st m p =
      (match Tree.traverse (mtree st m) (clearPath p) with
       | none => (st.notFound, none)
       | some (h, ps) => (h, some ps)) := by
  unfold lookup mtree
  cases hm : lookupA m st.treeByMethod with
  | none => simp [Option.getD_none, traverse_nil]
  | some t => rfl

theorem register_notFound {H : Type} (st : RouterState H) (m : String) (p : List Char)
    (h : H) : (register st m p h).2.notFound = st.notFound := by
  unfold register
  split
  · rfl
  · cases hb : Tree.build p h ((lookupA m st.treeByMethod).getD []) <;> simp [hb]

theorem registerAll_notFound {H : Type} :
    ∀ (L : List (String × List Char × H)) (st : RouterState H),
    (registerAll st L).notFound = st.notFound := by
  intro L
  induction L with
  | nil => intro st; rfl
  | cons e rest ih =>
    obtain ⟨m0, p0, h0⟩ := e
    intro st
    have : registerAll st ((m0, p0, h0) :: rest) =
        registerAll (register st m0 p0 h0).2 rest := rfl
    rw [this, ih, register_notFound]

/-- Rebuilding an already-built path changes nothing: the loop finds every
node already present and never replaces one (in particular an existing Leaf
keeps its original handler). -/
theorem buildGo_idem {H : Type} (params : List Param)
    (hp : ∀ q ∈ params, q.startIndex < q.endIndex) (h1 h2 : H) :
    ∀ (fuel j : Nat) (path : List Char) (n : Node H), path.length + 1 - j ≤ fuel →
    buildGo params hp h2 j path (buildGo params hp h1 j path n) =
      buildGo params hp h1 j path n := by
  intro fuel
  induction fuel with
  | zero =>
    intro j path n hf
    have hlt : path.length < j := by omega
    rw [buildGo_fin hlt, buildGo_fin hlt]
  | succ m ih =>
    intro j path n hf
    by_cases hlt : path.length < j
    · rw [buildGo_fin hlt, buildGo_fin hlt]
    · cases hfind : params.find? (fun q => q.startIndex == j) with
      | some p =>
        have hpj : p.startIndex = j := by simpa using List.find?_some hfind
        have hpe := hp p (List.mem_of_find?_eq_some hfind)
        rw [buildGo_param hlt hfind]
        rw [buildGo_param hlt hfind]
        simp only [frag_mk, param_mk, handler_mk, childTree_mk, lookupA_insertA_self]
        rw [ih (j + 1) (path.take j ++ path.drop p.endIndex) _
          (by
            simp only [List.length_append, List.length_take, List.length_drop]
            omega)]
        rw [insertA_insertA]
      | none =>
        rw [buildGo_lit hlt hfind]
        rw [buildGo_lit hlt hfind]
        simp only [frag_mk, param_mk, handler_mk, childTree_mk, lookupA_insertA_self]
        rw [ih (j + 1) path _ (by omega)]
        rw [insertA_insertA]

/-- A second `Tree.build` of the same path leaves the tree untouched. -/
theorem build_idem {H : Type} (p : List Char) (h1 h2 : H) (root root2 : TreeMap H)
    (hok : Tree.build p h1 root = .ok root2) : Tree.build p h2 root2 = .ok root2 := by
  unfold Tree.build at hok ⊢
  by_cases hlen : p.length < 1
  · rw [dif_pos hlen]
  · rw [dif_neg hlen] at hok ⊢
    cases hfind : (parseParams p).find? (fun q => q.startIndex == 1) with
    | some q0 =>
      rw [hfind] at hok
      simp at hok
    | none =>
      rw [hfind] at hok
      simp only [Except.ok.injEq] at hok ⊢
      rw [← hok]
      simp only [lookupA_insertA_self]
      rw [buildGo_idem (parseParams p)
        (fun q hq => ((parseParams_wf p) q hq).2.1) h1 h2 (p.length + 1 - 2) 2 p _
        (Nat.le_refl _)]
      rw [insertA_insertA]

/-- Registering the same `(method, path)` a second time with another handler
succeeds and leaves the router exactly as after the first registration
(first write wins). -/
theorem register_register {H : Type} (st : RouterState H) (m : String) (p : List Char)
    (h1 h2 : H) (hok : (register st m p h1).1 = .ok ()) :
    register (register st m p h1).2 m p h2 = (.ok (), (register st m p h1).2) := by
  cases hv : validatePath p with
  | error e =>
    exfalso
    unfold register at hok
    rw [hv] at hok
    simp at hok
  | ok u =>
    cases u
    cases hb : Tree.build p h1 ((lookupA m st.treeByMethod).getD []) with
    | error e =>
      exfalso
      unfold register at hok
      rw [hv] at hok
      simp only [hb] at hok
      simp at hok
    | ok t2 =>
      have hst : (register st m p h1).2 = ⟨insertA m t2 st.treeByMethod, st.notFound⟩ := by
        unfold register
        rw [hv]
        simp only [hb]
      have hl2 : lookupA m (insertA m t2 st.treeByMethod) = some t2 :=
        lookupA_insertA_self _ _ _
      have hb2 : Tree.build p h2 ((lookupA m (insertA m t2 st.treeByMethod)).getD []) =
          .ok t2 := by
        rw [hl2]
        exact build_idem p h1 h2 _ t2 hb
      rw [hst]
      unfold register
      rw [hv]
      simp only [hb2]
      rw [insertA_insertA]

theorem idxFrom_zero_none {c : Char} {l : List Char} (h : idxFrom c 0 l = none) :
    c ∉ l := by
  unfold idxFrom at h
  cases hA : idxOfAux c (l.drop 0) 0 with
  | some j =>
    rw [hA] at h
    simp at h
  | none =>
    have := idxOfAux_none hA
    simpa using this

/-- A validated path has a parameter descriptor at index 1 exactly when its
second character is a `:`. -/
theorem find1_iff_colon {p : List Char} (h0 : p[0]? ≠ some ':') :
    ((parseParams p).find? (fun q => q.startIndex == 1)).isSome ↔ p[1]? = some ':' := by
  constructor
  · intro hf
    obtain ⟨q, hq⟩ := Option.isSome_iff_exists.1 hf
    have hmem := List.mem_of_find?_eq_some hq
    have hpred : q.startIndex = 1 := by simpa using List.find?_some hq
    have := (parseParams_wf p q hmem).2.2
    rwa [hpred] at this
  · intro h1
    cases hs : idxFrom ':' 0 p with
    | none =>
      exfalso
      have := idxFrom_zero_none hs
      exact this (List.mem_iff_getElem?.2 ⟨1, h1⟩)
    | some s =>
      have hb := idxFrom_some hs
      have hfirst := idxFrom_first hs
      have hs1 : s = 1 := by
        by_contra hne
        rcases Nat.lt_or_ge s 1 with hlt | hge
        · have hz : s = 0 := by omega
          rw [hz] at hb
          exact h0 hb.2.2
        · have hgt : 1 < s := by omega
          exact hfirst 1 hgt h1
      rw [hs1] at hs
      unfold parseParams
      rw [parseGo_cons hs (by omega)]
      simp [List.find?]

/-- A build of a validated path succeeds exactly when the path has no `:` at
index 1 (the TypeError case of `/:id`-like patterns). -/
theorem build_ok_iff {H : Type} (p : List Char) (h : H) (t : TreeMap H)
    (hne : ¬ p.length < 1) (h0 : p[0]? ≠ some ':') :
    (∃ t2, Tree.build p h t = .ok t2) ↔ p[1]? ≠ some ':' := by
  unfold Tree.build
  rw [dif_neg hne]
  cases hfind : (parseParams p).find? (fun q => q.startIndex == 1) with
  | some q =>
    constructor
    · rintro ⟨t2, ht⟩
      cases ht
    · intro hcon
      exfalso
      exact hcon ((find1_iff_colon h0).1 (by rw [hfind]; rfl))
  | none =>
    constructor
    · rintro - h1
      have hcontra := (find1_iff_colon h0).2 h1
      rw [hfind] at hcontra
      cases hcontra
    · intro hcol
      exact ⟨_, rfl⟩

theorem validOK_head {p : List Char} (hv : validOK p) : p[0]? = some '/' := by
  cases p with
  | nil => simp [validOK] at hv
  | cons a t =>
    have := hv.1
    simp [List.take] at this
    simp [this]

/-- Proof-layer view of `lookup` without the `#clearPath` normalization, used
to state what the normalization contributes. -/
def lookupRaw {H : Type} (st : RouterState H) (method : String) (path : List Char) :
    H × Option (List (List Char × List Char)) :=
  match lookupA method st.treeByMethod with
  | none => (st.notFound, none)
  | some tree =>
    match Tree.traverse tree path with
    | none => (st.notFound, none)
    | some (h, ps) => (h, some ps)

/-- C1: registration round-trip for parameter-free paths.  For every sequence
of registrations whose paths are valid and contain no `:` and every
`(method, path, handler)` among them, a lookup of that path invokes exactly
that handler with an empty parameter mapping — provided the first registered
path of that method having `path` as a prefix is `path` itself, registered
with that handler (`specLeaf`).  This covers in particular `path` being a
strict prefix of paths registered later; the claim's further case, `path` a
strict prefix of a path registered earlier, is false on the code (see the
counterexample): the pre-existing interior node is never upgraded to a Leaf
and the handler is silently lost. -/
theorem C1_registration_roundtrip {H : Type} (L : List (String × List Char × H))
    (m : String) (p : List Char) (h : H) (nf : H)
    (hv : ∀ e ∈ L, validOK e.2.1 ∧ ':' ∉ e.2.1)
    (hs : specLeaf (filterM m L) p = some h) :
    lookup (registerAll (emptyRouter nf) L) m p = (h, some []) := by
  obtain ⟨hPF, hEx, hH⟩ := router_inv nf L hv m
  have hfind : ∃ e, (filterM m L).find? (fun e => p == e.1.take p.length) = some e ∧
      e.1 = p ∧ e.2 = h := by
    unfold specLeaf at hs
    cases hf : (filterM m L).find? (fun e => p == e.1.take p.length) with
    | none => rw [hf] at hs; cases hs
    | some e =>
      rw [hf] at hs
      have hs2 : (if e.1 = p then some e.2 else none) = some h := hs
      by_cases he : e.1 = p
      · rw [if_pos he] at hs2
        exact ⟨e, rfl, he, Option.some.inj hs2⟩
      · rw [if_neg he] at hs2
        cases hs2
  obtain ⟨e, hf, he1, he2⟩ := hfind
  have hmem : e ∈ filterM m L := List.mem_of_find?_eq_some hf
  have hvp : validOK p ∧ ':' ∉ p := by
    unfold filterM at hmem
    obtain ⟨e0, he0, he0e⟩ := List.mem_map.1 hmem
    have he0L : e0 ∈ L := List.mem_of_mem_filter he0
    have hv0 := hv e0 he0L
    rw [he0e, he1] at hv0
    exact hv0
  have hclear : clearPath p = p := clearPath_of_validOK hvp.1
  rw [lookup_eq_traverse, hclear, traverse_eq_walkNode hPF]
  have hexist : (walkNode (mtree (registerAll (emptyRouter nf) L) m) p).isSome := by
    apply (hEx p).2
    refine ⟨validOK_ne_nil hvp.1, e, hmem, ?_⟩
    rw [he1]
    exact (List.take_length p).symm
  obtain ⟨n, hn⟩ := Option.isSome_iff_exists.1 hexist
  have hhand : n.handler = some h := by
    have := hH p n hn
    rw [hs] at this
    exact this
  simp only [hn, hhand]

/-- Witness for C1 at a concrete instance: `/a` registered before `/ab`. -/
theorem C1_roundtrip_witness :
    lookup (registerAll (emptyRouter 0)
        [("GET", "/a".toList, 2), ("GET", "/ab".toList, 1)]) "GET" "/a".toList =
      (2, some []) :=
  C1_registration_roundtrip [("GET", "/a".toList, 2), ("GET", "/ab".toList, 1)]
    "GET" "/a".toList 2 0 (by decide) (by decide)

/-- Counterexample to C1 as stated: `/a` is registered (valid, no dynamic
segment, handler 2) after `/ab`, i.e. it is a strict prefix of a path
registered earlier for the same method; its lookup invokes the not-found
handler 0, not handler 2 — the interior node created while building `/ab` is
never turned into a Leaf. -/
theorem C1_prefix_of_earlier_counterexample :
    lookup (registerAll (emptyRouter 0)
        [("GET", "/ab".toList, 1), ("GET", "/a".toList, 2)]) "GET" "/a".toList =
      (0, none) := by
  simp [lookup, register, registerAll, validatePath, Tree.build, Tree.traverse, parseParams,
    parseGo_none, parseGo_cons, idxFrom, idxOfAux, paramEnd, buildGo_fin, buildGo_param,
    buildGo_lit, travGo_fin, travGo_dead, travGo_param, travGo_lit, finish, lookupA,
    insertA, clearPath, emptyRouter, param_mk, handler_mk, childTree_mk, frag_mk]

/-- C2 (amended): first write wins.  If registering `(m, p, h1)` succeeded,
registering `(m, p, h2)` afterwards raises no error (no duplicate detection,
as the claim says) but leaves the router state exactly as it was after the
first registration — the Leaf keeps `h1`, so a lookup invokes `h1`, not
`h2` (the claim's "last write wins" is false; see the counterexample). -/
theorem C2_first_write_wins {H : Type} (st : RouterState H) (m : String) (p : List Char)
    (h1 h2 : H) (hok : (register st m p h1).1 = .ok ()) :
    register (register st m p h1).2 m p h2 = (.ok (), (register st m p h1).2) :=
  register_register st m p h1 h2 hok

/-- Witness for C2 at a concrete instance. -/
theorem C2_first_write_witness :
    register (register (emptyRouter 0) "GET" "/a".toList 1).2 "GET" "/a".toList 2 =
      (.ok (), (register (emptyRouter 0) "GET" "/a".toList 1).2) :=
  C2_first_write_wins (emptyRouter 0) "GET" "/a".toList 1 2 (by
    simp [register, validatePath, Tree.build, parseParams, parseGo_none, idxFrom,
      idxOfAux, buildGo_fin, buildGo_lit, lookupA, insertA, emptyRouter])

/-- Counterexample to C2 as stated: after registering `/a` with handler 1 and
then with handler 2, the lookup invokes handler 1 — the second write did not
win. -/
theorem C2_last_write_counterexample :
    lookup (registerAll (emptyRouter 0)
        [("GET", "/a".toList, 1), ("GET", "/a".toList, 2)]) "GET" "/a".toList =
      (1, some []) := by
  simp [lookup, register, registerAll, validatePath, Tree.build, Tree.traverse, parseParams,
    parseGo_none, parseGo_cons, idxFrom, idxOfAux, paramEnd, buildGo_fin, buildGo_param,
    buildGo_lit, travGo_fin, travGo_dead, travGo_param, travGo_lit, finish, lookupA,
    insertA, clearPath, emptyRouter, param_mk, handler_mk, childTree_mk, frag_mk]

/-- C3: parameter capture.  For any method, any handler and any not-found
handler, registering `/items/:id` and looking up `/items/42` invokes exactly
that handler once, with the parameter mapping `{ id: "42" }`: the traversal
captures the substring after the parameter node up to the first `/` (else
`?`, else end of string) under the descriptor's name and collapses the path
before continuing. -/
theorem C3_parameter_capture {H : Type} (nf h : H) (m : String) :
    lookup (register (emptyRouter nf) m "/items/:id".toList h).2 m "/items/42".toList =
      (h, some [("id".toList, "42".toList)]) := by
  simp [lookup, register, validatePath, Tree.build, Tree.traverse, parseParams,
    parseGo_none, parseGo_cons, idxFrom, idxOfAux, paramEnd, buildGo_fin, buildGo_param,
    buildGo_lit, travGo_fin, travGo_dead, travGo_param, travGo_lit, finish, lookupA,
    insertA, clearPath, emptyRouter, param_mk, handler_mk, childTree_mk, frag_mk]

/-- C5: a literal continuation after a parameter must be registered.  After
registering only `/items/:id`, looking up `/items/42/extra` finds no match
and invokes the not-found handler with no parameter mapping: after capturing
"42" the collapsed path still contains `/extra`, for which the Leaf has no
child. -/
theorem C5_literal_continuation {H : Type} (nf h : H) (m : String) :
    lookup (register (emptyRouter nf) m "/items/:id".toList h).2 m
      "/items/42/extra".toList = (nf, none) := by
  simp [lookup, register, validatePath, Tree.build, Tree.traverse, parseParams,
    parseGo_none, parseGo_cons, idxFrom, idxOfAux, paramEnd, buildGo_fin, buildGo_param,
    buildGo_lit, travGo_fin, travGo_dead, travGo_param, travGo_lit, finish, lookupA,
    insertA, clearPath, emptyRouter, param_mk, handler_mk, childTree_mk, frag_mk]

/-- C4 (amended): for every path passing registration validation, the build
raises no error if and only if the path does not have `:` at index 1.  In
particular patterns like `/:id` — whose first dynamic segment starts
immediately after the leading slash — make `Tree.#buildTree` throw a
TypeError (`node.param` with `node` still `undefined` at `i = 1`), so the
claim's "build raises no failures" is false for them (see the
counterexample); every other validated pattern builds without error. -/
theorem C4_build_error_iff {H : Type} (p : List Char) (h : H) (t : TreeMap H)
    (hv : validOK p) :
    (∃ t2, Tree.build p h t = .ok t2) ↔ p[1]? ≠ some ':' := by
  have hne : ¬ p.length < 1 := by
    have := validOK_ne_nil hv
    cases p with
    | nil => exact absurd rfl this
    | cons a tq => simp
  have h0 : p[0]? ≠ some ':' := by
    rw [validOK_head hv]
    simp
  exact build_ok_iff p h t hne h0

/-- Witness for C4 at a concrete instance: `/items/:id` is validated and its
build succeeds (its `:` is at index 7, not 1). -/
theorem C4_build_witness :
    validOK "/items/:id".toList ∧
      ((∃ t2, Tree.build "/items/:id".toList (5 : Nat) ([] : TreeMap Nat) = .ok t2) ↔
        "/items/:id".toList[1]? ≠ some ':') :=
  ⟨by decide, C4_build_error_iff "/items/:id".toList 5 [] (by decide)⟩

/-- Counterexample to C4 as stated: `/:id` passes validation, yet registering
it throws the TypeError — and the method keeps an empty tree entry stored
before the throw. -/
theorem C4_colon_counterexample :
    validatePath "/:id".toList = .ok () ∧
      register (emptyRouter 0) "GET" "/:id".toList (1 : Nat) =
        (.error "TypeError: Cannot set properties of undefined (setting param)",
          ⟨[("GET", [])], 0⟩) := by
  constructor
  · decide
  · simp [register, validatePath, Tree.build, parseParams, parseGo_none, parseGo_cons,
      idxFrom, idxOfAux, paramEnd, lookupA, insertA, emptyRouter, List.find?]

/-- C6 (amended): strict prefixes are not matchable, for parameter-free
registrations.  If all paths registered are valid and contain no `:`, `p` is
a nonempty strict prefix of some registered path of the method, and the
normalized path `clearPath p` is not resolved by `specLeaf` (in particular
it was never itself registered), then the lookup of `p` invokes the
not-found handler, and the walk of the trie indeed ends on an existing
intermediate node that is not a Leaf.  With parameters the claim is false:
see the counterexample, where a never-registered strict prefix of a
registered pattern matches. -/
theorem C6_prefix_unmatchable {H : Type} (L : List (String × List Char × H))
    (m : String) (p : List Char) (nf : H)
    (hv : ∀ e ∈ L, validOK e.2.1 ∧ ':' ∉ e.2.1)
    (hq : ∃ e ∈ filterM m L, p ≠ e.1 ∧ p = e.1.take p.length)
    (hp0 : p ≠ [])
    (hns : specLeaf (filterM m L) (clearPath p) = none) :
    lookup (registerAll (emptyRouter nf) L) m p = (nf, none) ∧
    ∃ n, walkNode (mtree (registerAll (emptyRouter nf) L) m) (clearPath p) = some n ∧
      n.handler = none := by
  obtain ⟨hPF, hEx, hH⟩ := router_inv nf L hv m
  obtain ⟨e, hmem, hne, hpre⟩ := hq
  have hp2 : clearPath p = e.1.take (clearPath p).length ∧ clearPath p ≠ [] := by
    by_cases hc : 1 < p.length ∧ p.getLast? = some '/'
    · have hcp : clearPath p = p.dropLast := by
        unfold clearPath
        rw [if_pos hc]
      constructor
      · rw [hcp, List.length_dropLast, List.dropLast_eq_take]
        have h1 : List.take (p.length - 1) p =
            List.take (p.length - 1) (e.1.take p.length) :=
          congrArg (List.take (p.length - 1)) hpre
        rw [h1, List.take_take]
        congr 1
        omega
      · rw [hcp]
        intro hnil
        have hlen := congrArg List.length hnil
        rw [List.length_dropLast] at hlen
        simp at hlen
        omega
    · have hcp : clearPath p = p := by
        unfold clearPath
        rw [if_neg hc]
      rw [hcp]
      exact ⟨hpre, hp0⟩
  have hexist : (walkNode (mtree (registerAll (emptyRouter nf) L) m) (clearPath p)).isSome :=
    (hEx _).2 ⟨hp2.2, e, hmem, hp2.1⟩
  obtain ⟨n, hn⟩ := Option.isSome_iff_exists.1 hexist
  have hhand : n.handler = none := by
    have := hH _ n hn
    rw [hns] at this
    exact this
  refine ⟨?_, n, hn, hhand⟩
  rw [lookup_eq_traverse, traverse_eq_walkNode hPF]
  simp only [hn, hhand, registerAll_notFound]
  rfl

/-- Witness for C6 at a concrete instance: only `/ab` is registered; `/a` is
its nonempty unregistered strict prefix and falls to not-found. -/
theorem C6_prefix_witness :
    lookup (registerAll (emptyRouter 0) [("GET", "/ab".toList, 5)]) "GET" "/a".toList =
        (0, none) ∧
      ∃ n, walkNode (mtree (registerAll (emptyRouter 0) [("GET", "/ab".toList, 5)]) "GET")
          (clearPath "/a".toList) = some n ∧ n.handler = none :=
  C6_prefix_unmatchable [("GET", "/ab".toList, 5)] "GET" "/a".toList 0
    (by decide) (by decide) (by decide) (by decide)

/-- Counterexample to C6 as stated: `/a/:i` is a strict prefix of the
registered pattern `/a/:id` and was never itself registered, yet its lookup
matches and invokes handler 7 (capturing `{id: ":i"}`): with parameter
nodes, prefixes can be matchable. -/
theorem C6_param_prefix_counterexample :
    lookup (register (emptyRouter 0) "GET" "/a/:id".toList 7).2 "GET" "/a/:i".toList =
      (7, some [("id".toList, ":i".toList)]) := by
  simp [lookup, register, validatePath, Tree.build, Tree.traverse, parseParams,
    parseGo_none, parseGo_cons, idxFrom, idxOfAux, paramEnd, buildGo_fin, buildGo_param,
    buildGo_lit, travGo_fin, travGo_dead, travGo_param, travGo_lit, finish, lookupA,
    insertA, clearPath, emptyRouter, param_mk, handler_mk, childTree_mk, frag_mk]

/-- C7 (amended): registration validation.  `register` succeeds exactly when
the path passes the documented validation (starts with `/`, does not end
with `/` while longer than one character, does not end with `:`; the
"path must be a string" and "handler must be callable" assertions are
enforced by this embedding's types) AND the path has no `:` at index 1; on
any validation failure the failure is synchronous and the state is left
completely unchanged.  The claim's "exactly when" is false because `/:id`
passes every listed condition yet `register` throws from the build — and in
that case an (empty) trie entry for the method is created, so the state is
not unchanged either (see the counterexample). -/
theorem C7_validation_exactness {H : Type} (st : RouterState H) (m : String)
    (p : List Char) (h : H) :
    ((register st m p h).1 = .ok () ↔ (validOK p ∧ p[1]? ≠ some ':')) ∧
    (validatePath p ≠ .ok () → (register st m p h).2 = st) := by
  constructor
  · cases hv : validatePath p with
    | error e =>
      have hnv : ¬ validOK p := by
        intro hvv
        rw [(validatePath_ok_iff p).2 hvv] at hv
        cases hv
      unfold register
      rw [hv]
      simp [hnv]
    | ok u =>
      cases u
      have hvOK : validOK p := (validatePath_ok_iff p).1 hv
      have hne : ¬ p.length < 1 := by
        have := validOK_ne_nil hvOK
        cases p with
        | nil => exact absurd rfl this
        | cons a tq => simp
      have h0 : p[0]? ≠ some ':' := by
        rw [validOK_head hvOK]
        simp
      have hbo := build_ok_iff p h ((lookupA m st.treeByMethod).getD []) hne h0
      unfold register
      rw [hv]
      constructor
      · intro hok
        refine ⟨hvOK, ?_⟩
        apply hbo.1
        cases hb : Tree.build p h ((lookupA m st.treeByMethod).getD []) with
        | ok t2 => exact ⟨t2, rfl⟩
        | error e =>
          simp only [hb] at hok
          simp at hok
      · rintro ⟨-, hcol⟩
        obtain ⟨t2, hb⟩ := hbo.2 hcol
        simp only [hb]
  · intro hval
    unfold register
    cases hv : validatePath p with
    | error e => rfl
    | ok u =>
      cases u
      exact absurd hv hval

/-- Witness for C7 at a concrete instance: the path `"a"` fails validation;
registering it errors and leaves the router untouched. -/
theorem C7_validation_witness :
    ¬ ((register (emptyRouter 0) "GET" "a".toList (1 : Nat)).1 = .ok ()) ∧
      (register (emptyRouter 0) "GET" "a".toList (1 : Nat)).2 = emptyRouter 0 := by
  constructor
  · intro hok
    have := ((C7_validation_exactness (emptyRouter 0) "GET" "a".toList 1).1).1 hok
    exact absurd this.1 (by decide)
  · exact (C7_validation_exactness (emptyRouter 0) "GET" "a".toList 1).2 (by decide)

/-- Counterexample to C7 as stated: `/:id` satisfies every listed validation
condition, yet `register` fails — and the state is changed (a trie entry for
the method appears). -/
theorem C7_colon_counterexample :
    validatePath "/:id".toList = .ok () ∧
      (register (emptyRouter 0) "GET" "/:id".toList (1 : Nat)).1 ≠ .ok () ∧
      (register (emptyRouter 0) "GET" "/:id".toList (1 : Nat)).2 ≠ emptyRouter 0 := by
  have hreg : register (emptyRouter 0) "GET" "/:id".toList (1 : Nat) =
      (.error "TypeError: Cannot set properties of undefined (setting param)",
        ⟨[("GET", [])], 0⟩) := by
    simp [register, validatePath, Tree.build, parseParams, parseGo_none, parseGo_cons,
      idxFrom, idxOfAux, paramEnd, lookupA, insertA, emptyRouter, List.find?]
  refine ⟨by decide, ?_, ?_⟩
  · rw [hreg]
    simp
  · rw [hreg]
    simp [emptyRouter]

/-- C8: lookup never raises and always falls back.  In this embedding every
operation is a total function, mirroring that the source's lookup throws
nothing of its own; whenever the method has no trie or the traversal of the
cleared path finds no Leaf, the lookup invokes the not-found handler with
no parameter mapping, and a router constructed without a callback defaults
its not-found handler to the module's no-op function. -/
theorem C8_lookup_fallback {H : Type} (st : RouterState H) (m : String) (p : List Char)
    (noop : H)
    (hnm : ∀ t, lookupA m st.treeByMethod = some t → Tree.traverse t (clearPath p) = none) :
    lookup st m p = (st.notFound, none) ∧ (RadixRouter.new noop none).notFound = noop := by
  refine ⟨?_, rfl⟩
  rw [lookup_eq_traverse]
  cases hm : lookupA m st.treeByMethod with
  | none =>
    unfold mtree
    rw [hm]
    simp [traverse_nil]
  | some t =>
    unfold mtree
    rw [hm]
    simp [hnm t hm]

/-- Witness for C8 at a concrete instance: a fresh router with no routes. -/
theorem C8_fallback_witness :
    lookup (emptyRouter 0) "GET" "/x".toList = ((emptyRouter 0).notFound, none) ∧
      (RadixRouter.new 0 none).notFound = 0 :=
  C8_lookup_fallback (emptyRouter 0) "GET" "/x".toList 0 (by
    intro t ht
    simp [lookupA, emptyRouter] at ht)

/-- C9: trailing-slash normalization strips exactly one slash.  `lookup` is
the unnormalized lookup applied to `clearPath`, and `clearPath` removes one
trailing `/` exactly when the path is longer than one character and ends
with `/`; hence `/items/` matches a registered `/items`, `//` matches a
registered root `/`, and no further normalization happens: `/items//`
(stripped once to `/items/`) does not match `/items`. -/
theorem C9_trailing_slash {H : Type} (st : RouterState H) (m : String) (p : List Char)
    (nf h hr : H) :
    lookup st m p = lookupRaw st m (clearPath p) ∧
    clearPath p = (if 1 < p.length ∧ p.getLast? = some '/' then p.dropLast else p) ∧
    lookup (register (emptyRouter nf) m "/items".toList h).2 m "/items/".toList =
      (h, some []) ∧
    lookup (register (emptyRouter nf) m "/".toList hr).2 m "//".toList = (hr, some []) ∧
    lookup (register (emptyRouter nf) m "/items".toList h).2 m "/items//".toList =
      (nf, none) := by
  refine ⟨rfl, rfl, ?_, ?_, ?_⟩ <;>
    simp [lookup, register, validatePath, Tree.build, Tree.traverse, parseParams,
      parseGo_none, parseGo_cons, idxFrom, idxOfAux, paramEnd, buildGo_fin, buildGo_param,
      buildGo_lit, travGo_fin, travGo_dead, travGo_param, travGo_lit, finish, lookupA,
      insertA, clearPath, emptyRouter, param_mk, handler_mk, childTree_mk, frag_mk]

/-- C10: per-method isolation.  A registration under one method never changes
the outcome of any lookup under a different method — whether the
registration succeeds or fails, it only rewrites that one method's entry in
`#treeByMethod`. -/
theorem C10_method_isolation {H : Type} (st : RouterState H) (m1 m2 : String)
    (p q : List Char) (h : H) (hm : m1 ≠ m2) :
    lookup (register st m1 p h).2 m2 q = lookup st m2 q := by
  have hkey : ∀ t : TreeMap H,
      lookupA m2 (insertA m1 t st.treeByMethod) = lookupA m2 st.treeByMethod :=
    fun t => lookupA_insertA_ne t (fun hc => hm hc.symm) _
  unfold register
  cases hv : validatePath p with
  | error e => rfl
  | ok u =>
    cases u
    cases hb : Tree.build p h ((lookupA m1 st.treeByMethod).getD []) with
    | ok t2 => simp [lookup, hb, hkey]
    | error e => simp [lookup, hb, hkey]

/-- Witness for C10 at a concrete instance. -/
theorem C10_isolation_witness :
    lookup (register (emptyRouter 0) "GET" "/a".toList (1 : Nat)).2 "POST" "/a".toList =
      lookup (emptyRouter 0) "POST" "/a".toList :=
  C10_method_isolation (emptyRouter 0) "GET" "POST" "/a".toList "/a".toList 1
    (by decide)

end RadixRouterModel
